import Mathlib

/-!
Verification of the Filinator path-transcoding tool.

The development shallowly embeds the two C implementations found in the
repository:

* the single-file implementation `filinator.c` (functions `transform_path`,
  `copy_file`, `process_file`, `process_file_out`, `process_entry`,
  `process_dir`, `main`), and
* the modular implementation `src/path_transform.c` / `src/filinator.c`
  (functions `path_transform`, `path_process_file`, `process_entry`,
  `filinator_process_directory`).

Strings are modelled as `List Char` (the bytes of a NUL-terminated C string up
to, and not including, the terminator).  File contents are `List Nat` (bytes).
Filesystem mutation is modelled by the trace of rename/copy operations the
walker issues over an abstract directory tree; `realpath` is modelled as the
identity (paths are assumed already canonical and absolute), `mkpath` is a
collaborator that only creates new parent directories and never renames or
copies an existing entry, so it is not traced.  The Unix build is modelled
(`PATH_SEP` is the forward slash).
-/

namespace Filinator

/-- `PATH_MAX` from `<limits.h>` (with the fallback definition in the source). -/
def PATH_MAX : Nat := 4096

/-- `SEC_CHAR` / `kSectionChar`: the section byte `'\xA7'` used for encoding
spaces in directory names. -/
def SEC_CHAR : Char := '\xA7'

/-! ### The character-level rules of `transform_path` (filinator.c) -/

/-- Directory encode rule: `in[i] == ' ' ? SEC_CHAR : in[i]`. -/
def dirEncodeChar (c : Char) : Char :=
  if c = ' ' then SEC_CHAR else c

/-- Directory decode rule: `in[i] == SEC_CHAR ? ' ' : in[i]`. -/
def dirDecodeChar (c : Char) : Char :=
  if c = SEC_CHAR then ' ' else c

/-- File encode rule: `/ → @`, space `→ _`, `SEC_CHAR → ' '`, otherwise
unchanged. -/
def fileEncodeChar (c : Char) : Char :=
  if c = '/' then '@'
  else if c = ' ' then '_'
  else if c = SEC_CHAR then ' '
  else c

/-- File decode rule: `@ → /`, `_` or `SEC_CHAR → ' '`, otherwise unchanged. -/
def fileDecodeChar (c : Char) : Char :=
  if c = '@' then '/'
  else if c = '_' then ' '
  else if c = SEC_CHAR then ' '
  else c

/-- The per-character transformation selected by the `encode` and
`is_directory` flags, as in the body of the `for` loop of `transform_path`. -/
def transformChar (encode is_directory : Bool) (c : Char) : Char :=
  if is_directory then
    if encode then dirEncodeChar c else dirDecodeChar c
  else
    if encode then fileEncodeChar c else fileDecodeChar c

/-- `strncmp(in, "./", 2) == 0` handling: skip a leading `"./"`. -/
def stripDotSlash : List Char → List Char
  | '.' :: '/' :: rest => rest
  | l => l

/-- The `memmove`-style removal of a single leading `'/'` at the end of
`transform_path` (file decoding only). -/
def stripLeadingSlash : List Char → List Char
  | '/' :: rest => rest
  | l => l

/-- The copy loop of `transform_path`: writes transformed characters while
`in[i] != '\0' && j < cap` (with `cap = PATH_MAX - 1`), i.e. it silently stops
after `cap` output characters. -/
def transform_loop (f : Char → Char) : Nat → List Char → List Char
  | _, [] => []
  | 0, _ :: _ => []
  | cap + 1, c :: rest => f c :: transform_loop f cap rest

/-- `transform_path` from `filinator.c`: skip a leading `"./"` when decoding a
file path, transform at most `PATH_MAX - 1` characters, and for file decoding
remove one leading `'/'` from the result.  The function is `void` in C: it
signals no error, even when the input did not fit. -/
def transform_path (inp : List Char) (encode is_directory : Bool) : List Char :=
  let start := if !is_directory && !encode then stripDotSlash inp else inp
  let out := transform_loop (transformChar encode is_directory) (PATH_MAX - 1) start
  if !is_directory && !encode then stripLeadingSlash out else out

/-! ### The modular codec `path_transform` (src/path_transform.c, Unix build) -/

/-- Modular file encode rule (also folds `'\\'` into the path-separator case). -/
def mFileEncodeChar (c : Char) : Char :=
  if c = '/' ∨ c = '\\' then '@'
  else if c = ' ' then '_'
  else if c = SEC_CHAR then ' '
  else c

/-- Modular file decode rule (`kPathEncode → PATH_SEP`, with `PATH_SEP = '/'`
on Unix). -/
def mFileDecodeChar (c : Char) : Char :=
  if c = '@' then '/'
  else if c = '_' ∨ c = SEC_CHAR then ' '
  else c

/-- Per-character rule of `path_transform`. -/
def mTransformChar (encode is_directory : Bool) (c : Char) : Char :=
  if is_directory then
    if encode then dirEncodeChar c else dirDecodeChar c
  else
    if encode then mFileEncodeChar c else mFileDecodeChar c

/-- Skip a leading `"./"` or `".\\"` when decoding files. -/
def mStripDotSlash : List Char → List Char
  | '.' :: '/' :: rest => rest
  | '.' :: '\\' :: rest => rest
  | l => l

/-- Remove one leading `'/'` or `'\\'` from a decoded file path. -/
def mStripLeadingSep : List Char → List Char
  | '/' :: rest => rest
  | '\\' :: rest => rest
  | l => l

/-- `file_normalize_path` from `src/file_ops.c` on Unix: every `'/'` or
`'\\'` becomes `PATH_SEP = '/'`. -/
def file_normalize_path (l : List Char) : List Char :=
  l.map fun c => if c = '/' ∨ c = '\\' then '/' else c

/-- The copy loop of `path_transform`: returns the written output together
with the unconsumed input (`in[i] != '\0'` after the loop iff the second
component is nonempty). -/
def pt_loop (f : Char → Char) : Nat → List Char → List Char × List Char
  | _, [] => ([], [])
  | 0, rest => ([], rest)
  | cap + 1, c :: rest =>
      let r := pt_loop f cap rest
      (f c :: r.1, r.2)

/-- `path_transform` from `src/path_transform.c`: like `transform_path` but
with an explicit output buffer size, and returning `-1` (here `.error ()`)
when the input did not fit in the buffer instead of silently truncating.  On
success the decoded output additionally has its separators normalized. -/
def path_transform (inp : List Char) (output_size : Nat)
    (encode is_directory : Bool) : Except Unit (List Char) :=
  let start := if !is_directory && !encode then mStripDotSlash inp else inp
  let r := pt_loop (mTransformChar encode is_directory) (output_size - 1) start
  if r.2 ≠ [] then
    .error ()
  else
    let out := if !is_directory && !encode then mStripLeadingSep r.1 else r.1
    let out := if !encode then file_normalize_path out else out
    .ok out

/-! ### `copy_file` (filinator.c) / `file_copy` (src/file_ops.c)

The copy loop reads chunks of at most 4096 bytes until `fread` returns 0 and
writes each chunk to the destination.  The model returns the bytes written to
the destination file. -/

/-- The buffered copy loop (`while fread > 0`): chunks of at most 4096 bytes
are appended to the destination.  The iteration count is bounded by the
source length (each iteration consumes at least one byte), which keeps the
recursion structural. -/
def copy_loop (fuel : Nat) (content : List Nat) : List Nat :=
  match fuel, content with
  | _, [] => []
  | 0, _ => []
  | fuel + 1, content => content.take 4096 ++ copy_loop fuel (content.drop 4096)

/-- `copy_file` / `file_copy`: the bytes written to the destination. -/
def copy_file (content : List Nat) : List Nat :=
  copy_loop content.length content

/-! ### Basic lemmas about the codec loops -/

theorem transform_loop_eq_map_take (f : Char → Char) :
    ∀ (cap : Nat) (l : List Char),
      transform_loop f cap l = (l.take cap).map f := by
  intro cap l
  induction l generalizing cap with
  | nil => cases cap <;> simp [transform_loop]
  | cons c rest ih =>
      cases cap with
      | zero => simp [transform_loop]
      | succ n => simp [transform_loop, ih]

theorem pt_loop_eq (f : Char → Char) :
    ∀ (cap : Nat) (l : List Char),
      pt_loop f cap l = ((l.take cap).map f, l.drop cap) := by
  intro cap l
  induction l generalizing cap with
  | nil => cases cap <;> simp [pt_loop]
  | cons c rest ih =>
      cases cap with
      | zero => simp [pt_loop]
      | succ n => simp [pt_loop, ih]

theorem copy_loop_eq (fuel : Nat) :
    ∀ (content : List Nat), content.length ≤ fuel → copy_loop fuel content = content := by
  induction fuel with
  | zero =>
      intro content hc
      rw [List.length_eq_zero.mp (Nat.le_zero.mp hc)]
      rfl
  | succ n ih =>
      intro content hc
      match content with
      | [] => rfl
      | b :: rest =>
          have hdrop : ((b :: rest).drop 4096).length ≤ n := by
            simp only [List.length_drop, List.length_cons] at hc ⊢
            omega
          calc copy_loop (n + 1) (b :: rest)
              = (b :: rest).take 4096 ++ copy_loop n ((b :: rest).drop 4096) := rfl
            _ = (b :: rest).take 4096 ++ (b :: rest).drop 4096 := by rw [ih _ hdrop]
            _ = b :: rest := List.take_append_drop _ _

theorem copy_file_eq (content : List Nat) : copy_file content = content :=
  copy_loop_eq content.length content le_rfl

theorem stripLeadingSlash_cons (c : Char) (l : List Char) :
    stripLeadingSlash (c :: l) = if c = '/' then l else c :: l := by
  by_cases hc : c = '/'
  · subst hc; simp [stripLeadingSlash]
  · simp only [if_neg hc]
    unfold stripLeadingSlash
    split
    · rename_i heq
      cases heq
      exact absurd rfl hc
    · rfl

theorem stripLeadingSlash_sublist (l : List Char) :
    (stripLeadingSlash l).Sublist l := by
  cases l with
  | nil => simp [stripLeadingSlash]
  | cons c rest =>
      rw [stripLeadingSlash_cons]
      split
      · exact List.sublist_cons_self c rest
      · exact List.Sublist.refl _

theorem stripLeadingSlash_length (l : List Char) :
    (stripLeadingSlash l).length ≤ l.length :=
  (stripLeadingSlash_sublist l).length_le

theorem mStripLeadingSep_sublist (l : List Char) :
    (mStripLeadingSep l).Sublist l := by
  cases l with
  | nil => simp [mStripLeadingSep]
  | cons c rest =>
      by_cases h1 : c = '/'
      · subst h1; exact List.sublist_cons_self _ _
      · by_cases h2 : c = '\\'
        · subst h2; exact List.sublist_cons_self _ _
        · have : mStripLeadingSep (c :: rest) = c :: rest := by
            unfold mStripLeadingSep
            split
            · rename_i heq; cases heq; exact absurd rfl h1
            · rename_i heq; cases heq; exact absurd rfl h2
            · rfl
          rw [this]

theorem mem_transform_path (inp : List Char) (e d : Bool) (c : Char)
    (hc : c ∈ transform_path inp e d) : ∃ a, transformChar e d a = c := by
  unfold transform_path at hc
  simp only [transform_loop_eq_map_take] at hc
  split at hc
  · have hc' := (stripLeadingSlash_sublist _).mem hc
    obtain ⟨a, _, ha⟩ := List.mem_map.mp hc'
    exact ⟨a, ha⟩
  · obtain ⟨a, _, ha⟩ := List.mem_map.mp hc
    exact ⟨a, ha⟩

theorem fileEncodeChar_ne_sec (c : Char) : fileEncodeChar c ≠ SEC_CHAR := by
  unfold fileEncodeChar
  split_ifs with h1 h2 h3
  · decide
  · decide
  · decide
  · exact h3

theorem fileDecodeChar_ne_sec (c : Char) : fileDecodeChar c ≠ SEC_CHAR := by
  unfold fileDecodeChar
  split_ifs with h1 h2 h3
  · decide
  · decide
  · decide
  · exact h3

theorem dirDecodeChar_ne_sec (c : Char) : dirDecodeChar c ≠ SEC_CHAR := by
  unfold dirDecodeChar
  split_ifs with h1
  · decide
  · exact h1

/-! ### C1: directory-name round trip -/

/-- C1 (counterexample): the directory round trip fails on the name
consisting of the marker character itself, which is part of the alphabet the
claim quantifies over: directory encoding passes `SEC_CHAR` through unchanged
and directory decoding then turns it into a space. -/
theorem dir_roundtrip_counterexample :
    transform_path (transform_path [SEC_CHAR] true true) false true = [' '] ∧
      ([' '] : List Char) ≠ [SEC_CHAR] := by
  constructor
  · decide
  · decide

theorem dirDecode_dirEncode (c : Char) (h : c ≠ SEC_CHAR) :
    dirDecodeChar (dirEncodeChar c) = c := by
  unfold dirEncodeChar dirDecodeChar
  by_cases hsp : c = ' '
  · subst hsp; decide
  · rw [if_neg hsp, if_neg h]

/-- C1 (amended): for every directory name that fits in the path buffer and
does not contain the marker character, decoding the encoded name yields the
original name.  (The claim as stated also admits the marker character into
the name alphabet, where the round trip fails.) -/
theorem dir_roundtrip_marker_free (name : List Char)
    (hlen : name.length ≤ PATH_MAX - 1) (hsec : SEC_CHAR ∉ name) :
    transform_path (transform_path name true true) false true = name := by
  unfold transform_path
  simp only [Bool.not_true, Bool.false_and, Bool.and_false, if_neg,
    Bool.false_eq_true, ite_false, transform_loop_eq_map_take]
  rw [List.take_of_length_le hlen]
  have hlen2 : (name.map (transformChar true true)).length ≤ PATH_MAX - 1 := by
    simpa using hlen
  rw [List.take_of_length_le hlen2, List.map_map]
  have : ∀ a ∈ name, (transformChar false true ∘ transformChar true true) a = id a := by
    intro a ha
    simp only [transformChar, if_pos, Function.comp_apply, id_eq, ite_true]
    exact dirDecode_dirEncode a (fun hh => hsec (hh ▸ ha))
  rw [List.map_congr_left this, List.map_id]

/-- Witness for C1's amended theorem at the concrete name `"a b"`. -/
theorem dir_roundtrip_marker_free_witness :
    (("a b".toList.length ≤ PATH_MAX - 1) ∧ SEC_CHAR ∉ "a b".toList) ∧
      transform_path (transform_path "a b".toList true true) false true
        = "a b".toList :=
  ⟨⟨by decide, by decide⟩,
    dir_roundtrip_marker_free _ (by decide) (by decide)⟩

/-! ### C6: the marker character under the four transformations -/

/-- C6 (counterexample): encoding a directory name containing the marker does
not map the marker to a space — directory encoding passes the marker through
unchanged. -/
theorem marker_dir_encode_counterexample :
    transform_path [SEC_CHAR] true true = [SEC_CHAR] ∧
      ([SEC_CHAR] : List Char) ≠ [' '] := by
  constructor
  · decide
  · decide

/-- C6 (amended): file encoding, file decoding and directory decoding each
map the marker character to a space — the marker never appears in their
outputs — but directory encoding passes the marker through unchanged. -/
theorem marker_maps_to_space (inp : List Char) :
    SEC_CHAR ∉ transform_path inp true false ∧
    SEC_CHAR ∉ transform_path inp false false ∧
    SEC_CHAR ∉ transform_path inp false true ∧
    fileEncodeChar SEC_CHAR = ' ' ∧
    fileDecodeChar SEC_CHAR = ' ' ∧
    dirDecodeChar SEC_CHAR = ' ' ∧
    dirEncodeChar SEC_CHAR = SEC_CHAR := by
  refine ⟨?_, ?_, ?_, by decide, by decide, by decide, by decide⟩
  · intro hmem
    obtain ⟨a, ha⟩ := mem_transform_path _ _ _ _ hmem
    simp only [transformChar, Bool.false_eq_true, ite_false, ite_true] at ha
    exact fileEncodeChar_ne_sec a ha
  · intro hmem
    obtain ⟨a, ha⟩ := mem_transform_path _ _ _ _ hmem
    simp only [transformChar, Bool.false_eq_true, ite_false, ite_true] at ha
    exact fileDecodeChar_ne_sec a ha
  · intro hmem
    obtain ⟨a, ha⟩ := mem_transform_path _ _ _ _ hmem
    simp only [transformChar, Bool.false_eq_true, ite_false, ite_true] at ha
    exact dirDecodeChar_ne_sec a ha

/-! ### C8: leading separators in decoded file paths -/

/-- The raw decode input maps to two or more leading path separators (the
situation the single `memmove` in `transform_path` does not fully handle). -/
def twoLeadingSeps : List Char → Bool
  | a :: b :: _ => (fileDecodeChar a == '/') && (fileDecodeChar b == '/')
  | _ => false

/-- C8 (counterexample): decoding the raw file name `"@@a"` yields `"/a"`,
which begins with a path separator — only one leading separator is stripped. -/
theorem decoded_leading_sep_counterexample :
    (transform_path ['@', '@', 'a'] false false).head? = some '/' := by
  decide

/-- C8 (amended): a leading `"./"` is stripped before decoding and a single
leading separator is stripped afterwards, so the decoded file path never
begins with a path separator provided the raw name does not map to two or
more leading separators. -/
theorem decoded_single_leading_sep (inp : List Char)
    (h : twoLeadingSeps (stripDotSlash inp) = false) :
    (transform_path inp false false).head? ≠ some '/' := by
  unfold transform_path
  simp only [Bool.not_false, Bool.and_self, ite_true, transform_loop_eq_map_take,
    show (transformChar false false) = fileDecodeChar from funext fun _ => rfl]
  generalize hs : stripDotSlash inp = s at h
  match s with
  | [] => simp [stripLeadingSlash]
  | [a] =>
      rw [show List.take (PATH_MAX - 1) [a] = [a] from rfl]
      simp only [List.map_cons, List.map_nil]
      rw [stripLeadingSlash_cons]
      by_cases hfa : fileDecodeChar a = '/'
      · simp [hfa]
      · simp only [if_neg hfa, List.head?_cons, ne_eq, Option.some.injEq]
        exact hfa
  | a :: b :: t =>
      have h' : ¬(fileDecodeChar a = '/' ∧ fileDecodeChar b = '/') := by
        intro ⟨h1, h2⟩
        simp [twoLeadingSeps, h1, h2] at h
      rw [show List.take (PATH_MAX - 1) (a :: b :: t)
            = a :: b :: List.take (PATH_MAX - 3) t from rfl]
      simp only [List.map_cons]
      rw [stripLeadingSlash_cons]
      by_cases hfa : fileDecodeChar a = '/'
      · have hfb : fileDecodeChar b ≠ '/' := fun hb => h' ⟨hfa, hb⟩
        simp only [if_pos hfa, List.head?_cons, ne_eq, Option.some.injEq]
        exact hfb
      · simp only [if_neg hfa, List.head?_cons, ne_eq, Option.some.injEq]
        exact hfa

/-- Witness for C8's amended theorem on the raw name `"@a_b"` (decoding to
`"a b"`, with the inner separator intact words). -/
theorem decoded_single_leading_sep_witness :
    (twoLeadingSeps (stripDotSlash ['@', 'a', '_', 'b']) = false) ∧
      (transform_path ['@', 'a', '_', 'b'] false false).head? ≠ some '/' :=
  ⟨by decide, decoded_single_leading_sep _ (by decide)⟩

/-! ### C10: bounded output discipline of both codecs -/

/-- C10: both codecs write at most the buffer's capacity: the legacy
`transform_path` emits at most `PATH_MAX - 1` characters (plus the
terminating NUL in C), and the modular `path_transform` on success emits at
most `output_size - 1` characters.  Reading past the input terminator and a
missing NUL cannot be expressed here: the embedding consumes exactly the
characters before the terminator and returns a (always terminated) list. -/
theorem transform_bounded :
    (∀ (inp : List Char) (e d : Bool),
        (transform_path inp e d).length ≤ PATH_MAX - 1) ∧
    (∀ (inp : List Char) (size : Nat) (e d : Bool) (out : List Char),
        0 < size → path_transform inp size e d = .ok out →
        out.length ≤ size - 1) := by
  constructor
  · intro inp e d
    unfold transform_path
    have hlen : ∀ (l : List Char),
        ((l.take (PATH_MAX - 1)).map (transformChar e d)).length ≤ PATH_MAX - 1 := by
      intro l
      simp [List.length_take]
    simp only [transform_loop_eq_map_take]
    split
    · exact le_trans (stripLeadingSlash_length _) (hlen _)
    · exact hlen _
  · intro inp size e d out _hsize hok
    have hlen : ∀ (l : List Char) (g : Char → Char),
        (List.take (size - 1) (l.map g)).length ≤ size - 1 := by
      intro l g
      simp [List.length_take]
    have hlen2 : ∀ (l : List Char) (g : Char → Char),
        ((List.take (size - 1) l).map g).length ≤ size - 1 := by
      intro l g
      simp [List.length_take]
    have hnorm : ∀ (l : List Char), (file_normalize_path l).length = l.length := by
      intro l
      simp [file_normalize_path]
    cases e <;> cases d <;>
      simp [path_transform, pt_loop_eq] at hok <;>
      split at hok <;>
      first
        | exact Except.noConfusion hok
        | (simp only [Except.ok.injEq] at hok
           subst hok
           first
             | exact le_trans (le_of_eq (hnorm _))
                 (le_trans ((mStripLeadingSep_sublist _).length_le) (hlen _ _))
             | exact le_trans (le_of_eq (hnorm _))
                 (le_trans ((mStripLeadingSep_sublist _).length_le) (hlen2 _ _))
             | exact le_trans (le_of_eq (hnorm _)) (hlen _ _)
             | exact le_trans (le_of_eq (hnorm _)) (hlen2 _ _)
             | exact le_trans ((mStripLeadingSep_sublist _).length_le) (hlen _ _)
             | exact le_trans ((mStripLeadingSep_sublist _).length_le) (hlen2 _ _)
             | exact hlen _ _)

/-- Witness for C10 at a concrete input. -/
theorem transform_bounded_witness :
    (0 < 4096) ∧ path_transform ['a'] 4096 true false = .ok ['a'] ∧
      (['a'] : List Char).length ≤ 4096 - 1 :=
  ⟨by decide, by rfl,
    transform_bounded.2 ['a'] 4096 true false ['a'] (by decide) (by rfl)⟩

/-! ### C2 (counterexample part): the legacy codec truncates silently -/

/-- C2 (counterexample): `transform_path` in `filinator.c` is `void` — on an
input of `PATH_MAX` characters it stops after `PATH_MAX - 1` output
characters and signals nothing, instead of failing with a `TooLong` error:
the output is a strict truncation of the full transformation. -/
theorem transform_path_silent_truncation :
    transform_path (List.replicate PATH_MAX 'a') true true
        = List.replicate (PATH_MAX - 1) 'a' ∧
      List.replicate (PATH_MAX - 1) 'a'
        ≠ (List.replicate PATH_MAX 'a').map (transformChar true true) := by
  constructor
  · simp only [transform_path, Bool.not_true, Bool.false_and, Bool.false_eq_true,
      ite_false, transform_loop_eq_map_take, List.take_replicate, List.map_replicate]
    rw [show min (PATH_MAX - 1) PATH_MAX = PATH_MAX - 1 by decide]
    rw [show transformChar true true 'a' = 'a' from rfl]
  · intro h
    have hl := congrArg List.length h
    rw [List.length_replicate, List.length_map, List.length_replicate] at hl
    exact absurd hl (by decide)

/-! ### The directory tree and the operation trace

A directory's contents are modelled as a forest; a mutual inductive (rather
than a nested `List`) keeps all traversal functions structurally recursive
and hence computable by the kernel. -/

mutual

inductive FsTree where
  | file (name : List Char) (content : List Nat)
  | dir (name : List Char) (children : FsForest)

inductive FsForest where
  | nil : FsForest
  | cons (t : FsTree) (ts : FsForest) : FsForest

end

/-- The forest as a plain list of trees. -/
def FsForest.toList : FsForest → List FsTree
  | .nil => []
  | .cons t ts => t :: ts.toList

/-- A filesystem mutation issued by the walker: an in-place rename of a file,
an in-place rename of a directory, or a copy into the output directory
carrying the bytes written to the destination. -/
inductive Event where
  | renameFile (oldPath newPath : List Char)
  | renameDir (oldPath newPath : List Char)
  | copyOut (srcPath dstPath : List Char) (written : List Nat)
deriving DecidableEq

/-- The path of the existing entry an event operates on. -/
def Event.sourcePath : Event → List Char
  | .renameFile o _ => o
  | .renameDir o _ => o
  | .copyOut s _ _ => s

/-! ### The legacy walker (filinator.c)

`process_file` resolves the absolute path with `realpath` when encoding;
`realpath` is modelled as the identity (the traversal paths are assumed
canonical), and the `mkpath` call of the decode branch creates parent
directories only (it renames or copies nothing) and is not traced. -/

/-- `process_file` from `filinator.c`: compute the transformed path and
rename unless the transformation changed nothing. -/
def process_file (path : List Char) (encode : Bool) : List Event :=
  let oldp := path
  let newp :=
    if encode then transform_path oldp true false
    else transform_path oldp false false
  if oldp ≠ newp then [.renameFile oldp newp] else []

/-- `process_file_out` from `filinator.c`: encode the (absolute) path and
copy the bytes to `g_output_dir/enc`. -/
def process_file_out (g_output_dir path : List Char) (content : List Nat) :
    List Event :=
  let enc := transform_path path true false
  let dest := g_output_dir ++ '/' :: enc
  [.copyOut path dest (copy_file content)]

mutual

/-- `process_entry` from `filinator.c`: files are renamed in place (or copied
to the output directory when encoding in output mode); directories are
processed recursively first and then renamed unless in output mode or the
skip-rename flag is set. -/
def process_entry (gout : Option (List Char)) (dpath : List Char)
    (encode skip_rename : Bool) : FsTree → List Event
  | .file name content =>
      let full := dpath ++ '/' :: name
      match gout, encode with
      | some out, true => process_file_out out full content
      | _, _ => process_file full encode
  | .dir name children =>
      let full := dpath ++ '/' :: name
      process_dir gout full encode false children ++
        (if gout = none ∧ skip_rename = false then
          let newdir := transform_path full encode true
          if full ≠ newdir then [.renameDir full newdir] else []
        else [])

/-- `process_dir` from `filinator.c`: process every entry of the directory
with the directory's own skip-rename flag (`.` and `..` are not part of the
modelled forest). -/
def process_dir (gout : Option (List Char)) (dpath : List Char)
    (encode skip_rename : Bool) : FsForest → List Event
  | .nil => []
  | .cons t ts =>
      process_entry gout dpath encode skip_rename t ++
        process_dir gout dpath encode skip_rename ts

end

/-! ### The modular walker (src/filinator.c), in-place configuration

Modelled for `output_dir = NULL` (the in-place mode), which is the
configuration the too-long/error-containment claims exercise.  Each function
returns the events it issued together with its failure flag
(`true` = nonzero C return value). -/

/-- `path_process_file` from `src/path_transform.c` with `output_dir = NULL`:
a failed transformation aborts only this entry (no events, error flag);
otherwise rename unless nothing changed. -/
def path_process_file (path : List Char) (encode : Bool) : List Event × Bool :=
  if encode then
    match path_transform path PATH_MAX true false with
    | .error _ => ([], true)
    | .ok newp => if path = newp then ([], false) else ([.renameFile path newp], false)
  else
    match path_transform path PATH_MAX false false with
    | .error _ => ([], true)
    | .ok newp => if path = newp then ([], false) else ([.renameFile path newp], false)

mutual

/-- `process_entry` from `src/filinator.c` (in-place): join the path
(failing if it does not fit in `PATH_MAX`), then process the file, or recurse
into the directory and rename it afterwards unless the skip flag is set. -/
def process_entry_m (dpath : List Char) (encode skip_rename : Bool) :
    FsTree → List Event × Bool
  | .file name _ =>
      let full := dpath ++ '/' :: name
      if PATH_MAX ≤ full.length then ([], true)
      else path_process_file full encode
  | .dir name children =>
      let full := dpath ++ '/' :: name
      if PATH_MAX ≤ full.length then ([], true)
      else
        let sub := filinator_process_directory full encode false children
        if sub.2 then (sub.1, true)
        else if skip_rename then (sub.1, false)
        else
          match path_transform full PATH_MAX encode true with
          | .error _ => (sub.1, true)
          | .ok newdir =>
              if full = newdir then (sub.1, false)
              else (sub.1 ++ [.renameDir full newdir], false)

/-- `filinator_process_directory` from `src/filinator.c`: process every
entry, remembering whether any entry failed but always continuing with the
remaining siblings. -/
def filinator_process_directory (dpath : List Char) (encode skip_rename : Bool) :
    FsForest → List Event × Bool
  | .nil => ([], false)
  | .cons t ts =>
      let r := process_entry_m dpath encode skip_rename t
      let rest := filinator_process_directory dpath encode skip_rename ts
      (r.1 ++ rest.1, r.2 || rest.2)

end

/-! ### Helper lemmas about traces -/

theorem get_append_mem_left {α : Type} (L R : List α) (k : Nat)
    (hk : k < (L ++ R).length) (hkL : k < L.length) :
    (L ++ R).get ⟨k, hk⟩ ∈ L := by
  rw [List.get_eq_getElem, List.getElem_append_left hkL]
  exact List.getElem_mem hkL

theorem get_append_mem_right {α : Type} (L R : List α) (k : Nat)
    (hk : k < (L ++ R).length) (hkL : L.length ≤ k) :
    (L ++ R).get ⟨k, hk⟩ ∈ R := by
  rw [List.get_eq_getElem, List.getElem_append_right hkL]
  exact List.getElem_mem _

/-- In a trace `L ++ R`, if no element of `L` satisfies `P` and no element of
`R` satisfies `Q`, then any index satisfying `P` lies in `R` and any index
satisfying `Q` lies in `L`, so the latter comes first. -/
theorem append_index_order {α : Type} (L R : List α) (P Q : α → Prop)
    (hL : ∀ a ∈ L, ¬ P a) (hR : ∀ a ∈ R, ¬ Q a)
    (i j : Nat) (hi : i < (L ++ R).length) (hj : j < (L ++ R).length)
    (hPi : P ((L ++ R).get ⟨i, hi⟩)) (hQj : Q ((L ++ R).get ⟨j, hj⟩)) :
    j < i := by
  have hiL : ¬ i < L.length := fun hlt => hL _ (get_append_mem_left L R i hi hlt) hPi
  have hjL : j < L.length := by
    by_contra hge
    exact hR _ (get_append_mem_right L R j hj (Nat.le_of_not_lt hge)) hQj
  omega

theorem fileEncodeChar_ne_slash (c : Char) : fileEncodeChar c ≠ '/' := by
  unfold fileEncodeChar
  split_ifs with h1 h2 h3
  · decide
  · decide
  · decide
  · exact h1

/-- A file-encoded path contains no path separator: the encoded name is a
single segment. -/
theorem slash_not_mem_file_encode (l : List Char) :
    '/' ∉ transform_path l true false := by
  intro h
  obtain ⟨a, ha⟩ := mem_transform_path l true false '/' h
  rw [show transformChar true false = fileEncodeChar from funext fun _ => rfl] at ha
  exact fileEncodeChar_ne_slash a ha

/-- Membership in a conditional singleton. -/
theorem mem_ite_singleton {α : Type} (c : Prop) [Decidable c] (a x : α)
    (h : x ∈ if c then [a] else ([] : List α)) : c ∧ x = a := by
  split at h
  · rename_i hc
    simp only [List.mem_singleton] at h
    exact ⟨hc, h⟩
  · simp at h

/-- The only event `process_file` can issue is a rename of `path` to a
different name. -/
theorem mem_process_file (path : List Char) (encode : Bool) (ev : Event)
    (hev : ev ∈ process_file path encode) :
    ∃ newp, ev = .renameFile path newp ∧ path ≠ newp := by
  obtain ⟨hne, heq⟩ := mem_ite_singleton _ _ _ hev
  exact ⟨_, heq, hne⟩

/-- The only event `process_file_out` issues is the copy. -/
theorem mem_process_file_out (g_output_dir path : List Char) (content : List Nat)
    (ev : Event) (hev : ev ∈ process_file_out g_output_dir path content) :
    ev = .copyOut path (g_output_dir ++ '/' :: transform_path path true false)
      (copy_file content) := by
  simpa [process_file_out] using hev

/-- The conditional rename part of the directory branch of `process_entry`. -/
def dirRenamePart (gout : Option (List Char)) (skip_rename : Bool)
    (full : List Char) (encode : Bool) : List Event :=
  if gout = none ∧ skip_rename = false then
    let newdir := transform_path full encode true
    if full ≠ newdir then [.renameDir full newdir] else []
  else []

/-- `process_entry` on a directory is the recursive trace followed by the
conditional rename of the directory itself. -/
theorem process_entry_dir_eq (gout : Option (List Char)) (dpath : List Char)
    (encode skip_rename : Bool) (name : List Char) (children : FsForest) :
    process_entry gout dpath encode skip_rename (.dir name children)
      = process_dir gout (dpath ++ '/' :: name) encode false children
          ++ dirRenamePart gout skip_rename (dpath ++ '/' :: name) encode := rfl

/-- Members of the conditional rename part. -/
theorem mem_dirRenamePart (gout : Option (List Char)) (skip_rename : Bool)
    (full : List Char) (encode : Bool) (ev : Event)
    (hev : ev ∈ dirRenamePart gout skip_rename full encode) :
    ev = .renameDir full (transform_path full encode true) ∧
      full ≠ transform_path full encode true ∧
      gout = none ∧ skip_rename = false := by
  unfold dirRenamePart at hev
  by_cases hg : gout = none ∧ skip_rename = false
  · rw [if_pos hg] at hev
    obtain ⟨hne, heq⟩ := mem_ite_singleton _ _ _ hev
    exact ⟨heq, hne, hg⟩
  · rw [if_neg hg] at hev
    simp at hev

/-- `process_entry` on a file, by the mode dispatch of the C source. -/
theorem process_entry_file_eq (gout : Option (List Char)) (dpath : List Char)
    (encode skip_rename : Bool) (name : List Char) (content : List Nat) :
    process_entry gout dpath encode skip_rename (.file name content)
      = match gout, encode with
        | some out, true => process_file_out out (dpath ++ '/' :: name) content
        | _, _ => process_file (dpath ++ '/' :: name) encode := rfl

/-- Members of a file entry's trace: either the in-place rename or the copy. -/
theorem mem_entry_file (gout : Option (List Char)) (dpath : List Char)
    (encode skip_rename : Bool) (name : List Char) (content : List Nat)
    (ev : Event)
    (hev : ev ∈ process_entry gout dpath encode skip_rename (.file name content)) :
    (∃ newp, ev = .renameFile (dpath ++ '/' :: name) newp ∧
      (dpath ++ '/' :: name) ≠ newp) ∨
    (∃ out, gout = some out ∧ encode = true ∧
      ev = .copyOut (dpath ++ '/' :: name)
        (out ++ '/' :: transform_path (dpath ++ '/' :: name) true false)
        (copy_file content)) := by
  rw [process_entry_file_eq] at hev
  cases gout with
  | none =>
      exact Or.inl (mem_process_file _ _ _ hev)
  | some out =>
      cases encode with
      | false => exact Or.inl (mem_process_file _ _ _ hev)
      | true => exact Or.inr ⟨out, rfl, rfl, mem_process_file_out _ _ _ _ hev⟩

/-! ### Every traced event operates strictly inside the processed directory -/

mutual

/-- Every event issued while processing an entry of `dpath` has a source path
of the form `dpath/…`. -/
theorem entry_sourcePath (gout : Option (List Char)) (dpath : List Char)
    (encode skip_rename : Bool) (t : FsTree) (ev : Event)
    (hev : ev ∈ process_entry gout dpath encode skip_rename t) :
    ∃ tail, ev.sourcePath = dpath ++ '/' :: tail := by
  cases t with
  | file name content =>
      rcases mem_entry_file gout dpath encode skip_rename name content ev hev with
        ⟨newp, heq, _⟩ | ⟨out, _, _, heq⟩
      · subst heq
        exact ⟨name, rfl⟩
      · subst heq
        exact ⟨name, rfl⟩
  | dir name children =>
      rw [process_entry_dir_eq] at hev
      rcases List.mem_append.mp hev with hev | hev
      · obtain ⟨tail, htail⟩ :=
          dir_sourcePath gout (dpath ++ '/' :: name) encode false children ev hev
        refine ⟨name ++ '/' :: tail, ?_⟩
        rw [htail]
        simp
      · obtain ⟨heq, -, -, -⟩ := mem_dirRenamePart _ _ _ _ _ hev
        subst heq
        exact ⟨name, rfl⟩

/-- Forest version of `entry_sourcePath`. -/
theorem dir_sourcePath (gout : Option (List Char)) (dpath : List Char)
    (encode skip_rename : Bool) (ts : FsForest) (ev : Event)
    (hev : ev ∈ process_dir gout dpath encode skip_rename ts) :
    ∃ tail, ev.sourcePath = dpath ++ '/' :: tail := by
  cases ts with
  | nil => simp [process_dir] at hev
  | cons t rest =>
      simp only [process_dir, List.mem_append] at hev
      rcases hev with hev | hev
      · exact entry_sourcePath gout dpath encode skip_rename t ev hev
      · exact dir_sourcePath gout dpath encode skip_rename rest ev hev

end

/-! ### Rename events are only issued when the name actually changes -/

mutual

/-- Both rename guards of `filinator.c` (`strcmp(oldp, newp) != 0` for files,
`strcmp(full, newdir) != 0` for directories): a traced rename always has
distinct source and destination. -/
theorem entry_rename_guard (gout : Option (List Char)) (dpath : List Char)
    (encode skip_rename : Bool) (t : FsTree) (ev : Event)
    (hev : ev ∈ process_entry gout dpath encode skip_rename t) :
    (∀ o n, ev = .renameFile o n → o ≠ n) ∧
    (∀ o n, ev = .renameDir o n → o ≠ n) := by
  cases t with
  | file name content =>
      rcases mem_entry_file gout dpath encode skip_rename name content ev hev with
        ⟨newp, heq, hne⟩ | ⟨out, _, _, heq⟩
      · subst heq
        exact ⟨fun o n h2 => by cases h2; exact hne,
          fun o n h2 => Event.noConfusion h2⟩
      · subst heq
        exact ⟨fun o n h2 => Event.noConfusion h2,
          fun o n h2 => Event.noConfusion h2⟩
  | dir name children =>
      rw [process_entry_dir_eq] at hev
      rcases List.mem_append.mp hev with hev | hev
      · exact dir_rename_guard gout (dpath ++ '/' :: name) encode false children ev hev
      · obtain ⟨heq, hne, -, -⟩ := mem_dirRenamePart _ _ _ _ _ hev
        subst heq
        exact ⟨fun o n h2 => Event.noConfusion h2,
          fun o n h2 => by cases h2; exact hne⟩

/-- Forest version of `entry_rename_guard`. -/
theorem dir_rename_guard (gout : Option (List Char)) (dpath : List Char)
    (encode skip_rename : Bool) (ts : FsForest) (ev : Event)
    (hev : ev ∈ process_dir gout dpath encode skip_rename ts) :
    (∀ o n, ev = .renameFile o n → o ≠ n) ∧
    (∀ o n, ev = .renameDir o n → o ≠ n) := by
  cases ts with
  | nil => simp [process_dir] at hev
  | cons t rest =>
      simp only [process_dir, List.mem_append] at hev
      rcases hev with hev | hev
      · exact entry_rename_guard gout dpath encode skip_rename t ev hev
      · exact dir_rename_guard gout dpath encode skip_rename rest ev hev

end

/-! ### C3: post-order — a directory is renamed only after its subtree -/

/-- C3: in the trace of processing a directory entry, the event that operates
on the directory's own path (its rename) comes after every event that
operates strictly inside the directory's subtree: children are fully
processed, renames included, before the directory itself is renamed. -/
theorem dir_rename_after_subtree (gout : Option (List Char)) (dpath : List Char)
    (encode skip_rename : Bool) (name : List Char) (children : FsForest)
    (tr : List Event)
    (htr : tr = process_entry gout dpath encode skip_rename (.dir name children))
    (full : List Char) (hfull : full = dpath ++ '/' :: name)
    (i j : Nat) (hi : i < tr.length) (hj : j < tr.length)
    (hsrc : (tr.get ⟨i, hi⟩).sourcePath = full)
    (hsub : ∃ tail, (tr.get ⟨j, hj⟩).sourcePath = full ++ '/' :: tail) :
    j < i := by
  subst hfull
  rw [process_entry_dir_eq] at htr
  subst htr
  refine append_index_order _ _
    (fun ev => ev.sourcePath = dpath ++ '/' :: name)
    (fun ev => ∃ tail, ev.sourcePath = (dpath ++ '/' :: name) ++ '/' :: tail)
    ?_ ?_ i j hi hj hsrc hsub
  · intro ev hev heq
    obtain ⟨tail, htail⟩ :=
      dir_sourcePath gout (dpath ++ '/' :: name) encode false children ev hev
    rw [htail] at heq
    have hlen := congrArg List.length heq
    simp at hlen
  · intro ev hev hex
    obtain ⟨tail, htail⟩ := hex
    obtain ⟨heq, -, -, -⟩ := mem_dirRenamePart _ _ _ _ _ hev
    subst heq
    simp only [Event.sourcePath] at htail
    have hlen := congrArg List.length htail
    simp at hlen

/-! ### C5: an operation is only issued when the transformation changed
something -/

/-- C5: every traced rename has distinct source and destination (the
`strcmp` guards), and every traced copy is of a path whose file-encoded form
differs from the path itself (a joined path contains a separator, its encoded
form does not), so an entry whose transformation changes nothing never
produces a filesystem operation. -/
theorem noop_no_syscall (gout : Option (List Char)) (dpath : List Char)
    (encode skip_rename : Bool) (t : FsTree) (ev : Event)
    (hev : ev ∈ process_entry gout dpath encode skip_rename t) :
    (∀ o n, ev = .renameFile o n → o ≠ n) ∧
    (∀ o n, ev = .renameDir o n → o ≠ n) ∧
    (∀ s d b, ev = .copyOut s d b → transform_path s true false ≠ s) := by
  obtain ⟨h1, h2⟩ := entry_rename_guard gout dpath encode skip_rename t ev hev
  refine ⟨h1, h2, ?_⟩
  intro s d b heq hcontra
  obtain ⟨tail, htail⟩ := entry_sourcePath gout dpath encode skip_rename t ev hev
  subst heq
  simp only [Event.sourcePath] at htail
  have hs : '/' ∈ s := by
    rw [htail]
    simp
  rw [← hcontra] at hs
  exact slash_not_mem_file_encode s hs

/-! ### C9: output mode copies and never mutates the source tree -/

mutual

def countFilesT : FsTree → Nat
  | .file _ _ => 1
  | .dir _ children => countFilesF children

def countFilesF : FsForest → Nat
  | .nil => 0
  | .cons t ts => countFilesT t + countFilesF ts

end

mutual

/-- In output-encode mode every traced event is a copy whose destination is
the flattened encoded name directly under the output root. -/
theorem out_entry_shape (out dpath : List Char) (s : Bool) (t : FsTree)
    (ev : Event) (hev : ev ∈ process_entry (some out) dpath true s t) :
    ∃ src c, ev = .copyOut src (out ++ '/' :: transform_path src true false) c ∧
      '/' ∉ transform_path src true false := by
  cases t with
  | file name content =>
      have hred : process_entry (some out) dpath true s (.file name content)
          = process_file_out out (dpath ++ '/' :: name) content := rfl
      rw [hred] at hev
      have heq := mem_process_file_out _ _ _ _ hev
      subst heq
      exact ⟨_, _, rfl, slash_not_mem_file_encode _⟩
  | dir name children =>
      rw [process_entry_dir_eq] at hev
      rcases List.mem_append.mp hev with hev | hev
      · exact out_dir_shape out (dpath ++ '/' :: name) false children ev hev
      · obtain ⟨-, -, hg, -⟩ := mem_dirRenamePart _ _ _ _ _ hev
        exact Option.noConfusion hg

/-- Forest version of `out_entry_shape`. -/
theorem out_dir_shape (out dpath : List Char) (s : Bool) (ts : FsForest)
    (ev : Event) (hev : ev ∈ process_dir (some out) dpath true s ts) :
    ∃ src c, ev = .copyOut src (out ++ '/' :: transform_path src true false) c ∧
      '/' ∉ transform_path src true false := by
  cases ts with
  | nil => simp [process_dir] at hev
  | cons t rest =>
      simp only [process_dir, List.mem_append] at hev
      rcases hev with hev | hev
      · exact out_entry_shape out dpath s t ev hev
      · exact out_dir_shape out dpath s rest ev hev

end

mutual

/-- In output-encode mode the trace has exactly one event per file. -/
theorem out_entry_count (out dpath : List Char) (s : Bool) (t : FsTree) :
    (process_entry (some out) dpath true s t).length = countFilesT t := by
  cases t with
  | file name content => rfl
  | dir name children =>
      rw [process_entry_dir_eq]
      have hempty : dirRenamePart (some out) s (dpath ++ '/' :: name) true = [] := by
        unfold dirRenamePart
        rw [if_neg (by simp)]
      rw [hempty, List.append_nil, countFilesT]
      exact out_dir_count out (dpath ++ '/' :: name) false children

/-- Forest version of `out_entry_count`. -/
theorem out_dir_count (out dpath : List Char) (s : Bool) (ts : FsForest) :
    (process_dir (some out) dpath true s ts).length = countFilesF ts := by
  cases ts with
  | nil => rfl
  | cons t rest =>
      show (process_entry (some out) dpath true s t
          ++ process_dir (some out) dpath true s rest).length = _
      rw [List.length_append, out_entry_count out dpath s t,
        out_dir_count out dpath s rest, countFilesF]

end

/-- C9: in output mode with direction Encode, processing a file issues
exactly one copy, placed directly under the output root (the encoded
flattened name contains no separator) with bytes identical to the source;
every traced event of any subtree is such a copy (no entry of the source
tree is ever renamed), and the trace has exactly one event per source file. -/
theorem output_mode_copies_only (out dpath : List Char) (s : Bool) :
    (∀ (name : List Char) (content : List Nat),
        process_entry (some out) dpath true s (.file name content)
          = [.copyOut (dpath ++ '/' :: name)
              (out ++ '/' :: transform_path (dpath ++ '/' :: name) true false)
              content] ∧
        '/' ∉ transform_path (dpath ++ '/' :: name) true false) ∧
    (∀ (t : FsTree) (ev : Event), ev ∈ process_entry (some out) dpath true s t →
        ∃ src c, ev = .copyOut src (out ++ '/' :: transform_path src true false) c ∧
          '/' ∉ transform_path src true false) ∧
    (∀ (t : FsTree), (process_entry (some out) dpath true s t).length = countFilesT t) := by
  refine ⟨?_, ?_, ?_⟩
  · intro name content
    constructor
    · show process_file_out out (dpath ++ '/' :: name) content = _
      unfold process_file_out
      rw [copy_file_eq]
    · exact slash_not_mem_file_encode _
  · intro t ev hev
    exact out_entry_shape out dpath s t ev hev
  · intro t
    exact out_entry_count out dpath s t

/-! ### `main` (filinator.c)

The environment `main` interacts with: the `stat`/`mkdir` outcomes for the
output directory, whether `opendir` succeeds on the root, and the root's
directory contents. -/

structure World where
  outputExists : Bool
  outputIsDir : Bool
  mkdirOk : Bool
  rootReadable : Bool
  rootChildren : FsForest

/-- The output-directory setup of `main`: if `stat` fails the directory is
created (`mkdir`), otherwise it must already be a directory. -/
def setup_output (w : World) : Bool :=
  if w.outputExists then w.outputIsDir else w.mkdirOk

/-- The top-level `process_dir(argv[2], encode, 1)` call: an unreadable root
is only reported (`perror`), producing an empty trace. -/
def run_walk (gout : Option (List Char)) (root : List Char) (encode : Bool)
    (w : World) : List Event :=
  if w.rootReadable then process_dir gout root encode true w.rootChildren else []

/-- `main` from `filinator.c`: exit status and the trace of the run.  The
walk's outcome is discarded (`process_dir` is `void`), so a completed
argument/output-setup phase always exits 0. -/
def filinator_main (argv : List (List Char)) (w : World) : Nat × List Event :=
  if argv.length < 3 then (1, [])
  else if argv.getD 1 [] = "-encode".toList then
    if argv.length = 5 ∧ argv.getD 3 [] = "-output".toList then
      if setup_output w then
        (0, run_walk (some (argv.getD 4 [])) (argv.getD 2 []) true w)
      else (1, [])
    else if argv.length = 3 then
      if setup_output w then
        (0, run_walk (some "output".toList) (argv.getD 2 []) true w)
      else (1, [])
    else (1, [])
  else if argv.getD 1 [] = "-decode".toList then
    if argv.length = 3 then
      (0, run_walk none (argv.getD 2 []) false w)
    else (1, [])
  else (1, [])

/-! ### C4: exit codes -/

/-- C4 (counterexample): with an unreadable root directory (`opendir` fails,
`perror` only) a well-formed `-decode` invocation still exits 0, where the
claim requires exit status 1. -/
theorem unreadable_root_exit_zero :
    (World.mk false false false false .nil).rootReadable = false ∧
      (filinator_main ["f".toList, "-decode".toList, "r".toList]
          (World.mk false false false false .nil)).1 = 0 := by
  constructor
  · rfl
  · rfl

/-- C4 (amended): the process exits 1 on usage errors (fewer than three
arguments, an invalid mode, or a malformed argument shape) and on
output-directory setup failure; it exits 0 on every run on which the walk was
started — regardless of the world, so in particular even when the root is
unreadable or per-entry errors were printed. -/
theorem exit_codes (argv : List (List Char)) (w : World) :
    (argv.length < 3 → (filinator_main argv w).1 = 1) ∧
    (3 ≤ argv.length → argv.getD 1 [] ≠ "-encode".toList →
      argv.getD 1 [] ≠ "-decode".toList → (filinator_main argv w).1 = 1) ∧
    (argv.getD 1 [] = "-encode".toList →
      ((argv.length = 5 ∧ argv.getD 3 [] = "-output".toList) ∨ argv.length = 3) →
      setup_output w = false → (filinator_main argv w).1 = 1) ∧
    (argv.getD 1 [] = "-encode".toList →
      ((argv.length = 5 ∧ argv.getD 3 [] = "-output".toList) ∨ argv.length = 3) →
      setup_output w = true → (filinator_main argv w).1 = 0) ∧
    (argv.getD 1 [] = "-decode".toList → argv.length = 3 →
      (filinator_main argv w).1 = 0) ∧
    (argv.getD 1 [] = "-encode".toList → 3 ≤ argv.length →
      ¬((argv.length = 5 ∧ argv.getD 3 [] = "-output".toList) ∨ argv.length = 3) →
      (filinator_main argv w).1 = 1) ∧
    (argv.getD 1 [] = "-decode".toList → 3 ≤ argv.length → argv.length ≠ 3 →
      (filinator_main argv w).1 = 1) := by
  have hmode : argv.getD 1 [] = "-decode".toList → argv.getD 1 [] ≠ "-encode".toList := by
    intro hd he
    rw [hd] at he
    exact absurd he (by decide)
  refine ⟨?_, ?_, ?_, ?_, ?_, ?_, ?_⟩
  · intro h
    unfold filinator_main
    rw [if_pos h]
  · intro h3 hne hnd
    unfold filinator_main
    rw [if_neg (Nat.not_lt.mpr h3), if_neg hne, if_neg hnd]
  · intro he hshape hsf
    have h3 : ¬ argv.length < 3 := by
      rcases hshape with ⟨h5, -⟩ | h3eq <;> omega
    unfold filinator_main
    rw [if_neg h3, if_pos he]
    rcases hshape with ⟨h5, hout⟩ | h3eq
    · rw [if_pos ⟨h5, hout⟩, hsf]
      rfl
    · have hn5 : ¬(argv.length = 5 ∧ argv.getD 3 [] = "-output".toList) := by
        rintro ⟨h5, -⟩
        omega
      rw [if_neg hn5, if_pos h3eq, hsf]
      rfl
  · intro he hshape hst
    have h3 : ¬ argv.length < 3 := by
      rcases hshape with ⟨h5, -⟩ | h3eq <;> omega
    unfold filinator_main
    rw [if_neg h3, if_pos he]
    rcases hshape with ⟨h5, hout⟩ | h3eq
    · rw [if_pos ⟨h5, hout⟩, hst]
      rfl
    · have hn5 : ¬(argv.length = 5 ∧ argv.getD 3 [] = "-output".toList) := by
        rintro ⟨h5, -⟩
        omega
      rw [if_neg hn5, if_pos h3eq, hst]
      rfl
  · intro hd h3eq
    unfold filinator_main
    rw [if_neg (by omega), if_neg (hmode hd), if_pos hd, if_pos h3eq]
  · intro he h3 hnshape
    unfold filinator_main
    rw [if_neg (Nat.not_lt.mpr h3), if_pos he,
      if_neg (fun hc => hnshape (Or.inl hc)),
      if_neg (fun hc => hnshape (Or.inr hc))]
  · intro hd h3 hne3
    unfold filinator_main
    rw [if_neg (Nat.not_lt.mpr h3), if_neg (hmode hd), if_pos hd, if_neg hne3]

/-! ### C7: the root directory itself is never touched -/

/-- C7: the skip-rename flag is set only on the initial `process_dir` call in
`main` (every recursive call passes `false`), and consequently every event of
a full run operates on a path strictly below the user-supplied root: the root
directory itself is never renamed. -/
theorem root_never_renamed (argv : List (List Char)) (w : World) (ev : Event)
    (hev : ev ∈ (filinator_main argv w).2) :
    ∃ tail, ev.sourcePath = argv.getD 2 [] ++ '/' :: tail ∧
      ev.sourcePath ≠ argv.getD 2 [] := by
  have hcases : (filinator_main argv w).2 = [] ∨
      ∃ gout encode, (filinator_main argv w).2
        = process_dir gout (argv.getD 2 []) encode true w.rootChildren := by
    unfold filinator_main run_walk
    split_ifs <;> first | exact Or.inl rfl | exact Or.inr ⟨_, _, rfl⟩
  rcases hcases with h0 | ⟨gout, enc, hw⟩
  · rw [h0] at hev
    simp at hev
  · rw [hw] at hev
    obtain ⟨tail, htail⟩ :=
      dir_sourcePath gout (argv.getD 2 []) enc true w.rootChildren ev hev
    refine ⟨tail, htail, ?_⟩
    rw [htail]
    intro hc
    have hlen := congrArg List.length hc
    simp at hlen

/-! ### C2: a too-long transformation fails cleanly (modular implementation) -/

/-- The modular directory loop processes every entry: its trace is the
concatenation of all entries' traces and its status the disjunction of their
failure flags — one failing entry never suppresses its siblings. -/
theorem dir_events_all_entries (dpath : List Char) (encode skip_rename : Bool) :
    ∀ (ts : FsForest),
      filinator_process_directory dpath encode skip_rename ts
        = ((ts.toList.map fun t => (process_entry_m dpath encode skip_rename t).1).flatten,
           ts.toList.any fun t => (process_entry_m dpath encode skip_rename t).2)
  | .nil => rfl
  | .cons t rest => by
      have ih := dir_events_all_entries dpath encode skip_rename rest
      show ((process_entry_m dpath encode skip_rename t).1
            ++ (filinator_process_directory dpath encode skip_rename rest).1,
          (process_entry_m dpath encode skip_rename t).2
            || (filinator_process_directory dpath encode skip_rename rest).2) = _
      rw [ih]
      simp [FsForest.toList]

/-- C2 (amended): in the modular implementation, `path_transform` returns the
`-1`/TooLong error exactly when the input does not fit in the output buffer
(never silently truncating); a file entry whose joined path does not fit
fails with no event issued (only that entry is aborted); and the directory
loop still records every sibling's events and only accumulates the failure
flag.  (The legacy `transform_path` in `filinator.c` instead truncates
silently — see the counterexample.) -/
theorem toolong_fails_cleanly :
    (∀ (inp : List Char) (size : Nat) (e d : Bool), 0 < size →
      (path_transform inp size e d = .error () ↔
        size - 1 < (if !d && !e then mStripDotSlash inp else inp).length)) ∧
    (∀ (dpath name : List Char) (content : List Nat) (e s : Bool),
      PATH_MAX ≤ (dpath ++ '/' :: name).length →
      process_entry_m dpath e s (.file name content) = ([], true)) ∧
    (∀ (dpath : List Char) (e s : Bool) (ts : FsForest),
      (filinator_process_directory dpath e s ts).1
        = (ts.toList.map fun t => (process_entry_m dpath e s t).1).flatten ∧
      (filinator_process_directory dpath e s ts).2
        = ts.toList.any fun t => (process_entry_m dpath e s t).2) := by
  refine ⟨?_, ?_, ?_⟩
  · intro inp size e d _hsize
    simp only [path_transform]
    generalize (if (!d && !e) = true then mStripDotSlash inp else inp) = start
    rw [pt_loop_eq]
    by_cases hlt : size - 1 < start.length
    · have hdrop : start.drop (size - 1) ≠ [] := by
        rw [ne_eq, List.drop_eq_nil_iff]
        omega
      rw [if_pos (show (((start.take (size - 1)).map (mTransformChar e d),
        start.drop (size - 1)) : List Char × List Char).2 ≠ [] from hdrop)]
      simp [hlt]
    · have hdrop : start.drop (size - 1) = [] := by
        rw [List.drop_eq_nil_iff]
        omega
      rw [if_neg (show ¬(((start.take (size - 1)).map (mTransformChar e d),
        start.drop (size - 1)) : List Char × List Char).2 ≠ [] from fun hc => hc hdrop)]
      constructor
      · intro hc
        exact Except.noConfusion hc
      · intro hc
        exact absurd hc hlt
  · intro dpath name content e s h
    show (if PATH_MAX ≤ (dpath ++ '/' :: name).length then (([] : List Event), true)
        else path_process_file (dpath ++ '/' :: name) e) = ([], true)
    rw [if_pos h]
  · intro dpath e s ts
    rw [dir_events_all_entries]
    exact ⟨rfl, rfl⟩

/-! ### Witnesses -/

/-- Witness for C6's amended theorem at a concrete input. -/
theorem marker_maps_to_space_witness :
    SEC_CHAR ∉ transform_path ['x'] true false ∧ fileEncodeChar SEC_CHAR = ' ' :=
  ⟨(marker_maps_to_space ['x']).1, (marker_maps_to_space ['x']).2.2.2.1⟩

/-- Witness for C2's amended theorem at concrete inputs: a two-character
input does not fit a two-byte buffer and yields the error; a file whose
joined path exceeds `PATH_MAX` aborts with no event; a concrete directory's
trace is the concatenation over its entries. -/
theorem toolong_fails_cleanly_witness :
    ((0:Nat) < 2 ∧
      (path_transform ['a', 'b'] 2 true true = .error () ↔
        2 - 1 < (if !true && !true then mStripDotSlash ['a', 'b'] else ['a', 'b']).length) ∧
      path_transform ['a', 'b'] 2 true true = .error ()) ∧
    (PATH_MAX ≤ (([] : List Char) ++ '/' :: List.replicate 4095 'a').length ∧
      process_entry_m [] true false (.file (List.replicate 4095 'a') []) = ([], true)) ∧
    (filinator_process_directory ['r'] true false
        (.cons (.file ['a', ' ', 'b'] []) .nil)).1
      = ((FsForest.cons (.file ['a', ' ', 'b'] []) .nil).toList.map
          fun t => (process_entry_m ['r'] true false t).1).flatten := by
  refine ⟨⟨by decide, toolong_fails_cleanly.1 ['a', 'b'] 2 true true (by decide), by rfl⟩,
    ?_, (toolong_fails_cleanly.2.2 ['r'] true false
      (.cons (.file ['a', ' ', 'b'] []) .nil)).1⟩
  have hlen : PATH_MAX ≤ (([] : List Char) ++ '/' :: List.replicate 4095 'a').length := by
    rw [List.nil_append, List.length_cons, List.length_replicate]
    decide
  exact ⟨hlen, toolong_fails_cleanly.2.1 [] (List.replicate 4095 'a') [] true false hlen⟩

/-- Witness for C3 on a concrete tree: the file's rename (index 0) precedes
the directory's own rename (index 1). -/
theorem dir_rename_after_subtree_witness :
    (process_entry none ['r'] true false
        (.dir ['c', ' ', 'd'] (.cons (.file ['x', ' ', 'y'] []) .nil))).length = 2 ∧
      (0:Nat) < 1 :=
  ⟨by decide,
   dir_rename_after_subtree none ['r'] true false ['c', ' ', 'd']
     (.cons (.file ['x', ' ', 'y'] []) .nil) _ rfl _ rfl 1 0 (by decide) (by decide)
     (by decide) ⟨['x', ' ', 'y'], by decide⟩⟩

/-- Witness for C5 at a concrete renamed file. -/
theorem noop_no_syscall_witness :
    (Event.renameFile ['r', '/', 'a', ' ', 'b'] ['r', '@', 'a', '_', 'b']
        ∈ process_entry none ['r'] true false (.file ['a', ' ', 'b'] [])) ∧
      (∀ o n, Event.renameFile ['r', '/', 'a', ' ', 'b'] ['r', '@', 'a', '_', 'b']
          = .renameFile o n → o ≠ n) :=
  ⟨by decide,
   (noop_no_syscall none ['r'] true false (.file ['a', ' ', 'b'] []) _ (by decide)).1⟩

/-- Witness for C4's amended theorem: a well-formed decode invocation exits 0. -/
theorem exit_codes_witness :
    (["f".toList, "-decode".toList, ['r']].getD 1 [] = "-decode".toList) ∧
      (["f".toList, "-decode".toList, ['r']].length = 3) ∧
      (filinator_main ["f".toList, "-decode".toList, ['r']]
          (World.mk false false false true .nil)).1 = 0 :=
  ⟨by decide, by decide,
   (exit_codes ["f".toList, "-decode".toList, ['r']]
     (World.mk false false false true .nil)).2.2.2.2.1 (by decide) (by decide)⟩

/-- Witness for C7 on a concrete decode run touching one file under the root. -/
theorem root_never_renamed_witness :
    (Event.renameFile ['r', '/', 'a', '_', 'b'] ['r', '/', 'a', ' ', 'b']
        ∈ (filinator_main ["f".toList, "-decode".toList, ['r']]
            (World.mk false false false true
              (.cons (.file ['a', '_', 'b'] []) .nil))).2) ∧
      (∃ tail, (Event.renameFile ['r', '/', 'a', '_', 'b']
            ['r', '/', 'a', ' ', 'b']).sourcePath = ['r'] ++ '/' :: tail ∧
        (Event.renameFile ['r', '/', 'a', '_', 'b']
            ['r', '/', 'a', ' ', 'b']).sourcePath ≠ ['r']) :=
  ⟨by decide,
   root_never_renamed ["f".toList, "-decode".toList, ['r']]
     (World.mk false false false true (.cons (.file ['a', '_', 'b'] []) .nil))
     _ (by decide)⟩

/-- Witness for C9 at a concrete file in output mode. -/
theorem output_mode_copies_only_witness :
    process_entry (some ['o']) ['r'] true false (.file ['x'] [7, 8])
        = [.copyOut (['r'] ++ '/' :: ['x'])
            (['o'] ++ '/' :: transform_path (['r'] ++ '/' :: ['x']) true false)
            [7, 8]] ∧
      '/' ∉ transform_path (['r'] ++ '/' :: ['x']) true false :=
  (output_mode_copies_only ['o'] ['r'] false).1 ['x'] [7, 8]
